import Mathlib

/-!
Verification of the continued-fraction arithmetic module `cf.py`
(Gosper-style lazy continued fractions).

A value's partial-quotient stream is modelled as `Nat → Option Int`
(the `pq` protocol: `some q` is a finite partial quotient, `none` is the
end-of-sequence marker `None`; after the first `none` the protocol forbids
further queries, so only the prefix of the produced sequence up to and
including the first `none` is observable).  Generators are modelled as
fuel-indexed functions producing the list of values they yield; one unit
of fuel is one iteration of the generator's main loop, so for every
terminating behaviour a large enough fuel produces the whole observable
output.  Python's `//` and `%` on integers are floor division and floor
modulus, i.e. `Int.fdiv` and `Int.fmod`; `divmod(x, y)` is the pair
`(Int.fdiv x y, Int.fmod x y)`.
-/

/-- A partial-quotient stream: the `pq` protocol of `cf_base`. -/
abbrev PQStream := Nat → Option Int

/-- The stream of the `NaN` value `cf(())`: it signals end-of-sequence
at every index (its `fixed_pqs_closure` returns `None` for every `n`). -/
def nanStream : PQStream := fun _ => none

/-- Module-level tunable `max_iters` (default 100) from `cf.py`. -/
def max_iters : Nat := 100

/-- Observation of a stream as a list (used to model methods that return
an existing value object such as `self` or `NaN` unchanged): the first
`fuel` protocol answers, stopping at the end marker. -/
def obsStream (xp : PQStream) : Nat → List (Option Int)
  | 0 => []
  | fuel + 1 =>
    match xp 0 with
    | none => [none]
    | some q => some q :: obsStream (fun n => xp (n + 1)) fuel

/-! ### Floor-division facts

Range of Python's `%` (`Int.fmod`): the remainder has the sign of the
divisor.  Core provides the nonnegative-divisor half; we prove the
negative-divisor half from the constructor definition. -/

theorem fmod_range_neg (a : Int) {b : Int} (hb : b < 0) :
    b < a.fmod b ∧ a.fmod b ≤ 0 := by
  cases b with
  | ofNat n => exact absurd hb (Int.not_lt.mpr (Int.ofNat_nonneg n))
  | negSucc n =>
    cases a with
    | ofNat m =>
      cases m with
      | zero =>
        rw [show Int.fmod (Int.ofNat 0) (Int.negSucc n) = 0 from rfl, Int.negSucc_eq]
        omega
      | succ m =>
        have h1 : m % (n + 1) < n + 1 := Nat.mod_lt _ (Nat.succ_pos n)
        rw [show Int.fmod (Int.ofNat (m + 1)) (Int.negSucc n)
              = Int.subNatNat (m % (n + 1)) n from rfl,
          Int.subNatNat_eq_coe, Int.negSucc_eq]
        omega
    | negSucc m =>
      have h1 : (m + 1) % (n + 1) < n + 1 := Nat.mod_lt _ (Nat.succ_pos n)
      rw [show Int.fmod (Int.negSucc m) (Int.negSucc n)
            = -(Int.ofNat ((m + 1) % (n + 1))) from rfl,
        Int.negSucc_eq]
      simp only [Int.ofNat_eq_natCast]
      omega

theorem fmod_natAbs_lt (a : Int) {b : Int} (hb : b ≠ 0) :
    (a.fmod b).natAbs < b.natAbs := by
  rcases lt_or_gt_of_ne hb with h | h
  · have := fmod_range_neg a h
    omega
  · have h1 := Int.fmod_nonneg' a h
    have h2 := Int.fmod_lt_of_pos a h
    omega

/-! ### Rational source

`ratio(x, y)` from `cf.__new__`: the generator of the Euclidean
continued-fraction expansion of `x/y`, yielding `int(x // y)` while `y`
is nonzero and then the end marker. -/

/-- The quotients yielded by `ratio(x, y)` before the end marker. -/
def ratioQuots (x y : Int) : List Int :=
  if h : y = 0 then []
  else x.fdiv y :: ratioQuots y (x.fmod y)
termination_by y.natAbs
decreasing_by exact fmod_natAbs_lt x h

/-- The full output of the generator `ratio(x, y)`: its quotients
followed by the end marker `None`. -/
def ratio (x y : Int) : List (Option Int) :=
  if h : y = 0 then [none]
  else some (x.fdiv y) :: ratio y (x.fmod y)
termination_by y.natAbs
decreasing_by exact fmod_natAbs_lt x h

theorem ratio_eq_quots (x y : Int) :
    ratio x y = (ratioQuots x y).map some ++ [none] := by
  rw [ratio, ratioQuots]
  split
  · rfl
  · rw [ratio_eq_quots y (x.fmod y)]
    rfl
termination_by y.natAbs
decreasing_by exact fmod_natAbs_lt x (by assumption)

/-- The real value `a0 + 1/(a1 + 1/(...))` of a finite list of partial
quotients, as a rational number (`0` for the empty list). -/
def cfVal : List Int → ℚ
  | [] => 0
  | a :: rest => if rest.isEmpty then (a : ℚ) else (a : ℚ) + (cfVal rest)⁻¹

/-- The proper-remainder relation maintained by the Euclidean loop:
`r` lies strictly between `0` and `q` (on either side of zero). -/
def ProperRem (q r : Int) : Prop := (0 < r ∧ r < q) ∨ (q < r ∧ r < 0)

theorem properRem_fmod {p q : Int} (hq : q ≠ 0) (hm : p.fmod q ≠ 0) :
    ProperRem q (p.fmod q) := by
  rcases lt_or_gt_of_ne hq with h | h
  · have := fmod_range_neg p h
    exact Or.inr ⟨this.1, lt_of_le_of_ne this.2 hm⟩
  · have h1 := Int.fmod_nonneg' p h
    have h2 := Int.fmod_lt_of_pos p h
    exact Or.inl ⟨lt_of_le_of_ne h1 (Ne.symm hm), h2⟩

theorem one_le_fdiv_of_properRem {q r : Int} (hP : ProperRem q r) :
    1 ≤ q.fdiv r := by
  have heq := Int.fmod_add_fdiv q r
  by_contra hcon
  push_neg at hcon
  have hd : q.fdiv r ≤ 0 := by omega
  rcases hP with ⟨h1, h2⟩ | ⟨h1, h2⟩
  · have h3 : 0 ≤ q.fmod r := Int.fmod_nonneg' q h1
    have h4 : q.fmod r < r := Int.fmod_lt_of_pos q h1
    have h5 : r * q.fdiv r ≤ 0 := mul_nonpos_of_nonneg_of_nonpos (le_of_lt h1) hd
    omega
  · have h3 := fmod_range_neg q h2
    have h5 : 0 ≤ r * q.fdiv r := by
      have := mul_nonneg (neg_nonneg.mpr (le_of_lt h2)) (neg_nonneg.mpr hd)
      rwa [neg_mul_neg] at this
    omega

theorem two_le_fdiv_of_exact {q r : Int} (hP : ProperRem q r)
    (hm : q.fmod r = 0) : 2 ≤ q.fdiv r := by
  have heq := Int.fmod_add_fdiv q r
  have h1 := one_le_fdiv_of_properRem hP
  by_contra hcon
  push_neg at hcon
  have hd : q.fdiv r = 1 := by omega
  rw [hd, hm] at heq
  rcases hP with ⟨ha, hb⟩ | ⟨ha, hb⟩ <;> omega

theorem getLast?_cons_of_ne_nil {a : Int} {l : List Int} (h : l ≠ []) :
    (a :: l).getLast? = l.getLast? := by
  cases l with
  | nil => exact absurd rfl h
  | cons b t => simp [List.getLast?_cons_cons]

theorem ratioQuots_tail_spec (q r : Int) (hP : ProperRem q r) :
    ratioQuots q r ≠ [] ∧ (∀ x ∈ ratioQuots q r, 1 ≤ x) ∧
      (∀ x, (ratioQuots q r).getLast? = some x → 2 ≤ x) := by
  have hr : r ≠ 0 := by rcases hP with ⟨h1, h2⟩ | ⟨h1, h2⟩ <;> omega
  rw [ratioQuots, dif_neg hr]
  by_cases hm : q.fmod r = 0
  · have htail : ratioQuots r (q.fmod r) = [] := by
      rw [hm, ratioQuots]
      rfl
    rw [htail]
    refine ⟨by simp, ?_, ?_⟩
    · intro x hx
      rw [List.mem_singleton] at hx
      subst hx
      exact le_trans (by norm_num) (two_le_fdiv_of_exact hP hm)
    · intro x hx
      simp only [List.getLast?_singleton, Option.some.injEq] at hx
      subst hx
      exact two_le_fdiv_of_exact hP hm
  · have IH := ratioQuots_tail_spec r (q.fmod r) (properRem_fmod hr hm)
    refine ⟨by simp, ?_, ?_⟩
    · intro x hx
      rcases List.mem_cons.mp hx with h | h
      · subst h
        exact one_le_fdiv_of_properRem hP
      · exact IH.2.1 x h
    · intro x hx
      rw [getLast?_cons_of_ne_nil IH.1] at hx
      exact IH.2.2 x hx
termination_by r.natAbs
decreasing_by exact fmod_natAbs_lt q hr

theorem cfVal_ratioQuots (p q : Int) (hq : q ≠ 0) :
    cfVal (ratioQuots p q) = (p : ℚ) / q := by
  have heq := Int.fmod_add_fdiv p q
  rw [ratioQuots, dif_neg hq]
  by_cases hm : p.fmod q = 0
  · have htail : ratioQuots q (p.fmod q) = [] := by
      rw [hm, ratioQuots]
      rfl
    rw [htail]
    have hpq : (p : ℚ) = (q : ℚ) * ((p.fdiv q : Int) : ℚ) := by
      rw [hm, zero_add] at heq
      exact_mod_cast congrArg (fun z : Int => (z : ℚ)) heq.symm
    simp only [cfVal, List.isEmpty_nil, if_true]
    rw [hpq]
    field_simp
  · have hne : ratioQuots q (p.fmod q) ≠ [] := by
      rw [ratioQuots, dif_neg hm]
      simp
    have IH := cfVal_ratioQuots q (p.fmod q) hm
    have hcv : cfVal (p.fdiv q :: ratioQuots q (p.fmod q))
        = (p.fdiv q : ℚ) + (cfVal (ratioQuots q (p.fmod q)))⁻¹ := by
      rw [cfVal]
      simp [List.isEmpty_iff, hne]
    rw [hcv, IH]
    have hq' : (q : ℚ) ≠ 0 := Int.cast_ne_zero.mpr hq
    have hm' : ((p.fmod q : Int) : ℚ) ≠ 0 := Int.cast_ne_zero.mpr hm
    have hpq : (p : ℚ) = ((p.fmod q : Int) : ℚ) + (q : ℚ) * ((p.fdiv q : Int) : ℚ) := by
      exact_mod_cast congrArg (fun z : Int => (z : ℚ)) heq.symm
    rw [inv_div, hpq]
    field_simp
    ring
termination_by q.natAbs
decreasing_by exact fmod_natAbs_lt p hq

/-- Claim C6: for every integer pair `(p, q)` with `q ≠ 0`, the rational
source `cf(p, q)` produces the Euclidean continued-fraction expansion of
`p/q`: the generator's output is a finite list of quotients followed by
the end marker, the expansion's value is exactly `p/q`, every quotient
after the initial one is at least `1`, and when more than one quotient is
produced the last one is greater than `1` (canonical form). -/
theorem ratio_euclidean_correct (p q : Int) (hq : q ≠ 0) :
    ratio p q = (ratioQuots p q).map some ++ [none] ∧
    cfVal (ratioQuots p q) = (p : ℚ) / q ∧
    (∀ x ∈ (ratioQuots p q).tail, 1 ≤ x) ∧
    (∀ x, 1 < (ratioQuots p q).length →
      (ratioQuots p q).getLast? = some x → 2 ≤ x) := by
  refine ⟨ratio_eq_quots p q, cfVal_ratioQuots p q hq, ?_, ?_⟩
  · rw [ratioQuots, dif_neg hq]
    by_cases hm : p.fmod q = 0
    · rw [hm]
      rw [show ratioQuots q 0 = [] from by rw [ratioQuots]; rfl]
      simp
    · intro x hx
      rw [List.tail_cons] at hx
      exact (ratioQuots_tail_spec q (p.fmod q) (properRem_fmod hq hm)).2.1 x hx
  · rw [ratioQuots, dif_neg hq]
    by_cases hm : p.fmod q = 0
    · rw [hm]
      rw [show ratioQuots q 0 = [] from by rw [ratioQuots]; rfl]
      intro x hlen
      simp at hlen
    · intro x _ hx
      have hspec := ratioQuots_tail_spec q (p.fmod q) (properRem_fmod hq hm)
      rw [getLast?_cons_of_ne_nil hspec.1] at hx
      exact hspec.2.2 x hx

/-- Witness for C6 at `p = 1`, `q = 2`. -/
theorem ratio_euclidean_correct_witness :
    (2 : Int) ≠ 0 ∧
    (ratio 1 2 = (ratioQuots 1 2).map some ++ [none] ∧
     cfVal (ratioQuots 1 2) = (1 : ℚ) / 2 ∧
     (∀ x ∈ (ratioQuots 1 2).tail, 1 ≤ x) ∧
     (∀ x, 1 < (ratioQuots 1 2).length →
       (ratioQuots 1 2).getLast? = some x → 2 ≤ x)) :=
  ⟨by decide, ratio_euclidean_correct 1 2 (by decide)⟩

/-! ### Homographic engine

`_cf_homographic(nx, x_pq, a, b, c, d)` generates the continued fraction
of `(a*x + b)/(c*x + d)`. -/

/-- Outcome of the corner test at the top of `_cf_homographic`'s loop:
emit a quotient (`ac == bd`, both finite), emit the end marker
(`ac == bd == None`, i.e. `c = d = 0`), or pull from the input. -/
inductive HDecision where
  | emit (q : Int)
  | emitEnd
  | pull
deriving DecidableEq

/-- The corner computation of `_cf_homographic`: `ac` is
`floor(z(infinity))` (`None` when infinite) and `bd` is `floor(z(0))`,
with the source's special cases (`bd = ac` when `d = 0` and `b = 0`;
forced inequality when `c = 0`, `d ≠ 0`, `a ≠ 0`; `ac = bd = b//d` when
`c = 0`, `d ≠ 0`, `a = 0`), followed by the `ac == bd` test. -/
def homDecide (a b c d : Int) : HDecision :=
  if c ≠ 0 then
    let ac := a.fdiv c
    if d ≠ 0 then
      if ac = b.fdiv d then HDecision.emit ac else HDecision.pull
    else if b ≠ 0 then
      HDecision.pull
    else
      HDecision.emit ac
  else if d ≠ 0 then
    if a ≠ 0 then
      HDecision.pull
    else
      HDecision.emit (b.fdiv d)
  else
    HDecision.emitEnd

/-- The end-of-input loop of `_cf_homographic`: once the input stream is
exhausted, `while c: ac, bd = divmod(a, c); yield ac; a, c = c, bd`
followed by `yield None`. -/
def homFlush (a c : Int) : List (Option Int) :=
  if h : c = 0 then [none]
  else some (a.fdiv c) :: homFlush c (a.fmod c)
termination_by c.natAbs
decreasing_by exact fmod_natAbs_lt a h

/-- The generator `_cf_homographic(nx, x_pq, a, b, c, d)`, producing the
list of yielded values (`some q` per quotient, `none` for the end
marker), one unit of fuel per loop iteration. -/
def homRun : Nat → Nat → PQStream → Int → Int → Int → Int → List (Option Int)
  | 0, _, _, _, _, _, _ => []
  | fuel + 1, nx, xp, a, b, c, d =>
    match homDecide a b c d with
    | HDecision.emit q => some q :: homRun fuel nx xp c d (a - c * q) (b - d * q)
    | HDecision.emitEnd => [none]
    | HDecision.pull =>
      match xp nx with
      | some q => homRun fuel (nx + 1) xp (b + a * q) a (d + c * q) c
      | none => homFlush a c

/-- The emit-versus-pull rule exactly as the specification's algorithm
sentence states it: emit only when both corners are defined (`c ≠ 0` and
`d ≠ 0`) and their floors agree; otherwise pull from the input. -/
def homDecideSpec (a b c d : Int) : HDecision :=
  if c ≠ 0 ∧ d ≠ 0 ∧ a.fdiv c = b.fdiv d then HDecision.emit (a.fdiv c)
  else HDecision.pull

theorem homFlush_eq_ratio (a c : Int) : homFlush a c = ratio a c := by
  rw [homFlush, ratio]
  split
  · rfl
  · rw [homFlush_eq_ratio c (a.fmod c)]
termination_by c.natAbs
decreasing_by exact fmod_natAbs_lt a (by assumption)

/-- Claim C1 (counterexample): at coefficients `(a, b, c, d) = (1, 0, 1, 0)`
(the transform `x/x`, constructible as `unop(x, 1, 0, 1, 0)`), the corner
`b/d` is undefined (`d = 0`), so the claim's algorithm pulls an input
quotient; the code instead emits the quotient `1` without consuming any
input, because the source sets `bd = ac` when `d = 0` and `b = 0`. -/
theorem homographic_claim_counterexample :
    homDecide 1 0 1 0 = HDecision.emit 1 ∧
    homDecideSpec 1 0 1 0 = HDecision.pull ∧
    HDecision.emit 1 ≠ HDecision.pull := by decide

/-- Claim C1 (amended): at every step the engine computes the corner
values `⌊a/c⌋` and `⌊b/d⌋`; when `c ≠ 0` and `d ≠ 0` it emits `q = ⌊a/c⌋`
exactly when the two floors agree; when `d = 0`, `c ≠ 0` the `b/d` corner
is treated as equal to `⌊a/c⌋` if `b = 0` (the transform is the constant
`a/c`) and as undefined otherwise; when `c = 0`, `d ≠ 0` it emits
`⌊b/d⌋` if `a = 0` and pulls otherwise; when `c = d = 0` it emits the
end marker.  Emitting `q` updates the coefficients to
`(c, d, a - c*q, b - d*q)` without consuming input; pulling a finite
quotient `q` updates them to `(b + a*q, a, d + c*q, c)`; pulling the end
marker finishes with the rational-source (Euclidean) expansion of the
frozen `a` over `c` followed by the end marker. -/
theorem homographic_step_correct :
    (∀ a b c d : Int, c ≠ 0 → d ≠ 0 →
      homDecide a b c d =
        (if a.fdiv c = b.fdiv d then HDecision.emit (a.fdiv c)
         else HDecision.pull)) ∧
    (∀ a b c : Int, c ≠ 0 →
      homDecide a b c 0 =
        (if b = 0 then HDecision.emit (a.fdiv c) else HDecision.pull)) ∧
    (∀ a b d : Int, d ≠ 0 →
      homDecide a b 0 d =
        (if a = 0 then HDecision.emit (b.fdiv d) else HDecision.pull)) ∧
    (∀ a b : Int, homDecide a b 0 0 = HDecision.emitEnd) ∧
    (∀ (fuel nx : Nat) (xp : PQStream) (a b c d : Int),
      homRun (fuel + 1) nx xp a b c d =
        match homDecide a b c d with
        | HDecision.emit q => some q :: homRun fuel nx xp c d (a - c * q) (b - d * q)
        | HDecision.emitEnd => [none]
        | HDecision.pull =>
          match xp nx with
          | some q => homRun fuel (nx + 1) xp (b + a * q) a (d + c * q) c
          | none => ratio a c) := by
  refine ⟨?_, ?_, ?_, ?_, ?_⟩
  · intro a b c d hc hd
    simp [homDecide, hc, hd]
  · intro a b c hc
    by_cases hb : b = 0 <;> simp [homDecide, hc, hb]
  · intro a b d hd
    by_cases ha : a = 0 <;> simp [homDecide, ha, hd]
  · intro a b
    simp [homDecide]
  · intro fuel nx xp a b c d
    rw [homRun]
    rw [homFlush_eq_ratio]

/-- Witness for the amended C1 at `(a, b, c, d) = (7, 3, 2, 2)`. -/
theorem homographic_step_correct_witness :
    (2 : Int) ≠ 0 ∧ (2 : Int) ≠ 0 ∧
    homDecide 7 3 2 2 =
      (if (7 : Int).fdiv 2 = (3 : Int).fdiv 2 then HDecision.emit ((7 : Int).fdiv 2)
       else HDecision.pull) :=
  ⟨by decide, by decide, homographic_step_correct.1 7 3 2 2 (by decide) (by decide)⟩

/-! ### Comparison

`cf_base.__cmp__(self, other)` for a continued-fraction `other` (the
integer fast path does not apply).  Python 2's `long.__cmp__` returns
`-1`, `0` or `1`; the method's possible results are an `int` (an exact
decision, including exact equality `0`), the `long` `0L` (heuristic
equality after `max_iters/2` equal pairs), `True` (both operands NaN),
or a raised `ValueError` (`'NaN detected'`). -/

/-- Python 2 three-way comparison of two integers. -/
def pyCmp (a b : Int) : Int := if a < b then -1 else if a = b then 0 else 1

/-- Result of `__cmp__`: `val z` models an exact `int` result `z`,
`approxZero` models the heuristic `0L` (a zero of type `long`,
distinguishable by the caller from the `int` zero), `nanEqual` models
`return True` (a nonzero result: two NaNs compare unequal), and
`nanError` models the raised `ValueError('NaN detected')`. -/
inductive CmpRes where
  | val (z : Int)
  | approxZero
  | nanEqual
  | nanError
deriving DecidableEq

/-- The main loop `for i in xrange(max_iters/2)` of `__cmp__`, at
current index `i` with `fuel` loop iterations remaining.  The factor
`1 - 2*(i & 1)` of the source is `(-1)^i`. -/
def cmpLoop (sp op : PQStream) : Nat → Nat → CmpRes
  | _, 0 => CmpRes.approxZero
  | i, fuel + 1 =>
    match sp i, op i with
    | none, none => CmpRes.val 0
    | none, some o => CmpRes.val ((1 - 2 * ((i : Int) % 2)) * pyCmp o 0)
    | some s, none => CmpRes.val ((1 - 2 * ((i : Int) % 2)) * pyCmp 0 s)
    | some s, some o =>
      if pyCmp s o = 0 then cmpLoop sp op (i + 1) fuel
      else CmpRes.val ((1 - 2 * ((i : Int) % 2)) * pyCmp s o)

/-- `cf_base.__cmp__(self, other)` with `other` a continued-fraction
value: the NaN checks followed by the bounded index-by-index loop
(`max_iters / 2` iterations; Python's `100/2` is integer division). -/
def cfCmp (sp op : PQStream) : CmpRes :=
  if op 0 = none then
    if sp 0 = none then CmpRes.nanEqual else CmpRes.nanError
  else cmpLoop sp op 0 (max_iters / 2)

/-- The closure `e_pq` of `_cf_exp_1n(1)`: the partial quotients of
Euler's number `e = cf(2; 1, 2, 1, 1, 4, 1, 1, 6, ...)`. -/
def e_pq : PQStream := fun index =>
  if index % 3 = 2 then some (2 * (index / 3 : Nat) + 2)
  else if index ≠ 0 then some 1
  else some 2

/-- The decision `__cmp__` takes at the single index `m` (used to state
what the loop returns when `m` is the first deciding index). -/
def cmpDecide (sp op : PQStream) (m : Nat) : CmpRes :=
  match sp m, op m with
  | none, none => CmpRes.val 0
  | none, some o => CmpRes.val ((1 - 2 * ((m : Int) % 2)) * pyCmp o 0)
  | some s, none => CmpRes.val ((1 - 2 * ((m : Int) % 2)) * pyCmp 0 s)
  | some s, some o => CmpRes.val ((1 - 2 * ((m : Int) % 2)) * pyCmp s o)

theorem pyCmp_eq_zero_iff {a b : Int} : pyCmp a b = 0 ↔ a = b := by
  unfold pyCmp
  split
  · constructor
    · intro h
      exact absurd h (by norm_num)
    · intro h
      omega
  · split
    · simp_all
    · constructor
      · intro h
        exact absurd h (by norm_num)
      · intro h
        simp_all

theorem cmpLoop_all_equal (sp op : PQStream) :
    ∀ (fuel i : Nat),
      (∀ j, i ≤ j → j < i + fuel → sp j = op j ∧ sp j ≠ none) →
      cmpLoop sp op i fuel = CmpRes.approxZero := by
  intro fuel
  induction fuel with
  | zero => intro i _; rfl
  | succ fuel ih =>
    intro i h
    have hi := h i (le_refl i) (by omega)
    rw [cmpLoop]
    rcases hs : sp i with _ | s
    · exact absurd hs hi.2
    · rw [show op i = some s from hi.1 ▸ hs]
      show (if pyCmp s s = 0 then cmpLoop sp op (i + 1) fuel
            else CmpRes.val ((1 - 2 * ((i : Int) % 2)) * pyCmp s s)) = CmpRes.approxZero
      rw [if_pos (pyCmp_eq_zero_iff.mpr rfl)]
      exact ih (i + 1) (fun j h1 h2 => h j (by omega) (by omega))

theorem cmpLoop_first_decision (sp op : PQStream) :
    ∀ (fuel i m : Nat), i ≤ m → m < i + fuel →
      (∀ j, i ≤ j → j < m → sp j = op j ∧ sp j ≠ none) →
      (sp m = none ∨ op m = none ∨ sp m ≠ op m) →
      cmpLoop sp op i fuel = cmpDecide sp op m := by
  intro fuel
  induction fuel with
  | zero => intro i m h1 h2; omega
  | succ fuel ih =>
    intro i m h1 h2 hpre hdec
    rw [cmpLoop]
    rcases Nat.eq_or_lt_of_le h1 with rfl | hlt
    · unfold cmpDecide
      rcases hs : sp i with _ | s <;> rcases ho : op i with _ | o
      · rfl
      · rfl
      · rfl
      have hne : s ≠ o := by
        rcases hdec with h | h | h
        · rw [hs] at h
          exact absurd h (by simp)
        · rw [ho] at h
          exact absurd h (by simp)
        · rw [hs, ho] at h
          intro hc
          exact h (by rw [hc])
      show (if pyCmp s o = 0 then cmpLoop sp op (i + 1) fuel
            else CmpRes.val ((1 - 2 * ((i : Int) % 2)) * pyCmp s o))
          = CmpRes.val ((1 - 2 * ((i : Int) % 2)) * pyCmp s o)
      rw [if_neg (fun hz => hne (pyCmp_eq_zero_iff.mp hz))]
    · have hi := hpre i (le_refl i) hlt
      rcases hs : sp i with _ | s
      · exact absurd hs hi.2
      · rw [show op i = some s from hi.1 ▸ hs]
        show (if pyCmp s s = 0 then cmpLoop sp op (i + 1) fuel
              else CmpRes.val ((1 - 2 * ((i : Int) % 2)) * pyCmp s s)) = cmpDecide sp op m
        rw [if_pos (pyCmp_eq_zero_iff.mpr rfl)]
        exact ih (i + 1) m hlt (by omega)
          (fun j hj1 hj2 => hpre j (by omega) hj2) hdec

theorem neg_one_pow_int (m : Nat) : (-1 : Int) ^ m = 1 - 2 * ((m : Int) % 2) := by
  rcases Nat.even_or_odd m with h | h
  · rw [h.neg_one_pow]
    have := Nat.even_iff.mp h
    omega
  · rw [h.neg_one_pow]
    have := Nat.odd_iff.mp h
    omega

/-- Stream of the golden-ratio-style value `[1; 1, 1, ...]` (all ones). -/
def cmpCexA : PQStream := fun _ => some 1

/-- Stream agreeing with `cmpCexA` up to index 49 and first differing at
index 50 (the canonical finite value `[1; 1, ..., 1, 2]`). -/
def cmpCexB : PQStream := fun n => if n = 50 then some 2 else some 1

/-- Claim C4 (counterexample): two values with non-empty streams whose
quotients first differ at index 50.  The claim predicts the result
`(-1)^50 * cmp(1, 2) = -1`; the code's loop runs only `max_iters/2 = 50`
index pairs (indices 0..49), never reaches the differing index, and
returns the heuristic long-typed zero instead. -/
theorem cmp_index_claim_counterexample :
    (∀ j, j < 50 → cmpCexA j = cmpCexB j ∧ cmpCexA j ≠ none) ∧
    cmpCexA 50 = some 1 ∧ cmpCexB 50 = some 2 ∧
    cfCmp cmpCexA cmpCexB = CmpRes.approxZero ∧
    CmpRes.approxZero ≠ CmpRes.val ((-1 : Int) ^ 50 * pyCmp 1 2) := by
  refine ⟨by decide, rfl, rfl, ?_, by decide⟩
  rfl

/-- Claim C4 (amended): for values with non-empty quotient streams,
comparison proceeds index by index; provided the first deciding index
`m` lies within the loop bound `max_iters/2` (50 by default), equal
pairs continue, and at `m`: if both streams end, the result is the exact
zero; if exactly one ends, the result is `(-1)^m` times the sign of the
still-live stream's term against zero; if both produce differing terms,
the result is `(-1)^m` times their ordering. -/
theorem cmp_index_by_index (sp op : PQStream) (m : Nat)
    (hm : m < max_iters / 2)
    (hpre : ∀ j, j < m → sp j = op j ∧ sp j ≠ none)
    (hs0 : sp 0 ≠ none) (ho0 : op 0 ≠ none) :
    (sp m = none → op m = none → cfCmp sp op = CmpRes.val 0) ∧
    (∀ o : Int, sp m = none → op m = some o →
      cfCmp sp op = CmpRes.val ((-1 : Int) ^ m * pyCmp o 0)) ∧
    (∀ s : Int, sp m = some s → op m = none →
      cfCmp sp op = CmpRes.val ((-1 : Int) ^ m * pyCmp 0 s)) ∧
    (∀ s o : Int, sp m = some s → op m = some o → s ≠ o →
      cfCmp sp op = CmpRes.val ((-1 : Int) ^ m * pyCmp s o)) := by
  have hcf : cfCmp sp op = cmpLoop sp op 0 (max_iters / 2) := by
    unfold cfCmp
    rw [if_neg ho0]
  have hrun : ∀ hdec : sp m = none ∨ op m = none ∨ sp m ≠ op m,
      cfCmp sp op = cmpDecide sp op m := fun hdec => by
    rw [hcf]
    exact cmpLoop_first_decision sp op (max_iters / 2) 0 m (Nat.zero_le m)
      (by omega) (fun j _ hj => hpre j hj) hdec
  refine ⟨?_, ?_, ?_, ?_⟩
  · intro h1 h2
    rw [hrun (Or.inl h1)]
    unfold cmpDecide
    rw [h1, h2]
  · intro o h1 h2
    rw [hrun (Or.inl h1), neg_one_pow_int]
    unfold cmpDecide
    rw [h1, h2]
  · intro s h1 h2
    rw [hrun (Or.inr (Or.inl h2)), neg_one_pow_int]
    unfold cmpDecide
    rw [h1, h2]
  · intro s o h1 h2 hne
    have hdec : sp m ≠ op m := by
      rw [h1, h2]
      simp [hne]
    rw [hrun (Or.inr (Or.inr hdec)), neg_one_pow_int]
    unfold cmpDecide
    rw [h1, h2]

/-- Streams for the C4 witness: they agree at index 0 and differ at 1. -/
def cmpWitA : PQStream := fun n => if n = 1 then some 3 else some 1

/-- Second stream for the C4 witness. -/
def cmpWitB : PQStream := fun n => if n = 1 then some 5 else some 1

/-- Witness for the amended C4: first difference at index `m = 1`. -/
theorem cmp_index_by_index_witness :
    (1 < max_iters / 2) ∧
    cfCmp cmpWitA cmpWitB = CmpRes.val ((-1 : Int) ^ 1 * pyCmp 3 5) :=
  ⟨by decide,
   (cmp_index_by_index cmpWitA cmpWitB 1 (by decide) (by decide)
       (by decide) (by decide)).2.2.2 3 5 rfl rfl (by decide)⟩

/-- Claim C5 (counterexample): two streams (the constant-1 and constant-2
streams), neither exhausted within `max_iters/2 = 50` index pairs, yet
comparison does not return the heuristic-equal result: it decides
exactly at index 0 because the quotients differ there.  The claim's
premise must also require that all compared pairs are equal. -/
theorem cmp_heuristic_claim_counterexample :
    (∀ i, i < max_iters / 2 → cmpCexA i ≠ none ∧ (fun _ => some 2 : PQStream) i ≠ none) ∧
    cfCmp cmpCexA (fun _ => some 2) = CmpRes.val (-1) ∧
    CmpRes.val (-1) ≠ CmpRes.approxZero := by
  refine ⟨by decide, ?_, by decide⟩
  rfl

/-- Claim C5 (amended): if within the first `max_iters/2 = 50` index
pairs neither operand's stream is exhausted and every pair of quotients
agrees, comparison terminates with the heuristic long-typed zero,
which the caller can distinguish from the exact int-typed zero. -/
theorem cmp_heuristic_equal (sp op : PQStream)
    (h : ∀ i, i < max_iters / 2 → sp i = op i ∧ sp i ≠ none) :
    cfCmp sp op = CmpRes.approxZero ∧ CmpRes.approxZero ≠ CmpRes.val 0 := by
  have h0 := h 0 (by decide)
  have ho0 : op 0 ≠ none := (h 0 (by decide)).1 ▸ h0.2
  refine ⟨?_, by decide⟩
  unfold cfCmp
  rw [if_neg ho0]
  exact cmpLoop_all_equal sp op (max_iters / 2) 0 (fun j _ hj => h j (by omega))

/-- Witness for the amended C5: comparing `e` to itself always
terminates with the heuristic-equal result and never reports unequal
(the claim's "in particular" instance). -/
theorem cmp_heuristic_equal_witness :
    (∀ i, i < max_iters / 2 → e_pq i = e_pq i ∧ e_pq i ≠ none) ∧
    (cfCmp e_pq e_pq = CmpRes.approxZero ∧ CmpRes.approxZero ≠ CmpRes.val 0) :=
  ⟨by decide, cmp_heuristic_equal e_pq e_pq (by decide)⟩

/-- Claim C10: at the comparison interface, NaN operands behave
asymmetrically: a value with a non-empty stream compared against a NaN
right operand raises `ValueError('NaN detected')`, while NaN compared
against NaN returns Python's `True` — a nonzero result, so two NaNs are
reported unequal (in particular it differs from the equal result `0`). -/
theorem cmp_nan_asymmetry (sp op : PQStream) :
    (sp 0 ≠ none → op 0 = none → cfCmp sp op = CmpRes.nanError) ∧
    (sp 0 = none → op 0 = none → cfCmp sp op = CmpRes.nanEqual) ∧
    CmpRes.nanEqual ≠ CmpRes.val 0 := by
  refine ⟨?_, ?_, by decide⟩
  · intro hs ho
    unfold cfCmp
    rw [if_pos ho, if_neg hs]
  · intro hs ho
    unfold cfCmp
    rw [if_pos ho, if_pos hs]

/-- Witness for C10 at the streams `[1; 1, 1, ...]` and NaN. -/
theorem cmp_nan_asymmetry_witness :
    (cmpCexA 0 ≠ none) ∧
    cfCmp cmpCexA nanStream = CmpRes.nanError ∧
    cfCmp nanStream nanStream = CmpRes.nanEqual :=
  ⟨by decide, (cmp_nan_asymmetry cmpCexA nanStream).1 (by decide) rfl,
   (cmp_nan_asymmetry nanStream nanStream).2.1 rfl rfl⟩

/-! ### Bihomographic engine

`_cf_bihomographic(x_pq, y_pq, a, b, c, d, e, f, g, h)` generates the
continued fraction of
`z(x,y) = (a*x*y + b*x + c*y + d)/(e*x*y + f*x + g*y + h)`. -/

/-- State of the sequential corner scan at the top of the loop:
`lower`/`upper` bounds for the next output quotient (`none` = infinite),
the `any_results` flag, the corner floors `bf`, `cg`, `dh` (`none` models
Python `None`; the source also stores the dummy `dh = 0` when `h = 0`
and `d = 0`), and the forced value of `ingest_x` (`none` while unset). -/
structure CState where
  lower : Option Int
  upper : Option Int
  anyR : Bool
  bf : Option Int
  cg : Option Int
  dh : Option Int
  ingestx : Option Bool
deriving DecidableEq

/-- The `e`-block of the corner scan (corner `a/e` at `(inf, inf)`):
`any_results` is the truthiness of `a` when `e = 0`. -/
def blockE (a e : Int) : CState :=
  if e ≠ 0 then
    ⟨some (a.fdiv e), some (a.fdiv e), true, none, none, none, none⟩
  else
    ⟨none, none, decide (a ≠ 0), none, none, none, none⟩

/-- The `f`-block (corner `b/f` at `(inf, 0)`); its final `else` arm
sets `upper` unconditionally, unlike the `g`/`h` blocks. -/
def blockF (b f : Int) (s : CState) : CState :=
  if f ≠ 0 then
    let bf := b.fdiv f
    let s' := { s with bf := some bf }
    if ¬s.anyR then { s' with lower := some bf, upper := some bf }
    else
      match s.lower with
      | none => { s' with lower := some bf }
      | some l =>
        if bf < l then { s' with lower := some bf }
        else { s' with upper := some bf }
  else if b ≠ 0 then { s with upper := none, bf := none, anyR := true }
  else { s with ingestx := some false }

/-- The `g`-block (corner `c/g` at `(0, inf)`). -/
def blockG (c g : Int) (s : CState) : CState :=
  if g ≠ 0 then
    let cg := c.fdiv g
    let s' := { s with cg := some cg }
    if ¬s.anyR then { s' with lower := some cg, upper := some cg }
    else
      match s.lower with
      | none => { s' with lower := some cg }
      | some l =>
        if cg < l then { s' with lower := some cg }
        else
          match s.upper with
          | none => s'
          | some u => if cg > u then { s' with upper := some cg } else s'
  else if c ≠ 0 then { s with upper := none, cg := none, anyR := true }
  else { s with ingestx := some true }

/-- The `h`-block (corner `d/h` at `(0, 0)`); when `h = 0` and `d = 0`
the source stores the dummy `dh = 0` for the later `bf-dh`/`cg-dh`
comparisons. -/
def blockH (d h : Int) (s : CState) : CState :=
  if h ≠ 0 then
    let dh := d.fdiv h
    let s' := { s with dh := some dh }
    if ¬s.anyR then { s' with lower := some dh, upper := some dh }
    else
      match s.lower with
      | none => { s' with lower := some dh }
      | some l =>
        if dh < l then { s' with lower := some dh }
        else
          match s.upper with
          | none => s'
          | some u => if dh > u then { s' with upper := some dh } else s'
  else if d ≠ 0 then { s with upper := none, dh := none }
  else { s with dh := some 0 }

/-- The whole corner scan of one loop iteration. -/
def corners (a b c d e f g h : Int) : CState :=
  blockH d h (blockG c g (blockF b f (blockE a e)))

/-- The sign-aware `ingest_x` cascade: the source's `abs()`-free
equivalent of `abs(bf - dh) > abs(cg - dh)`. -/
def ingestCascade (bf cg dh : Option Int) : Bool :=
  match bf with
  | none => dh.isSome
  | some bfv =>
    match cg with
    | none => dh.isNone
    | some cgv =>
      match dh with
      | none =>
        if bfv > 0 then
          if cgv > 0 then decide (bfv < cgv) else decide (bfv < -cgv)
        else
          if cgv > 0 then decide (-bfv < cgv) else decide (bfv > cgv)
      | some dhv =>
        if bfv > dhv then
          if cgv > dhv then decide (bfv > cgv) else decide (bfv - dhv > dhv - cgv)
        else
          if cgv > dhv then decide (dhv - bfv > cgv - dhv) else decide (cgv > bfv)

/-- The final value of `ingest_x`: the forced value when a block set it,
otherwise the cascade. -/
def chooseIngest (s : CState) : Bool :=
  match s.ingestx with
  | some v => v
  | none => ingestCascade s.bf s.cg s.dh

/-- The condition of the cutoff branch:
`(upper is None) or (lower == upper - 1)`. -/
def bracketStuck (s : CState) : Bool :=
  match s.upper with
  | none => true
  | some u => decide (s.lower = some (u - 1))

/-- Outcome of the ingestion step: fold a finite quotient into the
coefficients, or degrade to the homographic engine over the surviving
input when the pulled stream has ended. -/
inductive BIngest where
  | next (nx ny : Nat) (a b c d e f g h : Int)
  | degradeToY (ny : Nat) (A B C D : Int)
  | degradeToX (nx : Nat) (A B C D : Int)

/-- The ingestion step of `_cf_bihomographic`: pull from `x` or from `y`
according to `ingest_x` and apply the source's update rule, or collapse
to the homographic engine on the other input when the pulled stream
ends (`(a, b, e, f)` over `y` when `x` ends; `(a, c, e, g)` over `x`
when `y` ends). -/
def bihomIngest (xp yp : PQStream) (nx ny : Nat)
    (a b c d e f g h : Int) (s : CState) : BIngest :=
  if chooseIngest s then
    match xp nx with
    | some q =>
      BIngest.next (nx + 1) ny (c + a * q) (d + b * q) a b (g + e * q) (h + f * q) e f
    | none => BIngest.degradeToY ny a b e f
  else
    match yp ny with
    | some q =>
      BIngest.next nx (ny + 1) (b + a * q) a (d + c * q) c (f + e * q) e (h + g * q) g
    | none => BIngest.degradeToX nx a c e g

/-- The generator `_cf_bihomographic`, one unit of fuel per loop
iteration.  `iters` is `iters_left`; an emission resets it to
`max_iters` (`allowed_iters`); an unresolved-bracket iteration
decrements it, and at zero the generator yields `upper` and the end
marker.  When `lower == upper == None` the generator yields the end
marker (the protocol then stops the generator). -/
def bihomLoop (xp yp : PQStream) :
    Nat → Nat → Nat → Int → Int → Int → Int → Int → Int → Int → Int →
    Nat → List (Option Int)
  | 0, _, _, _, _, _, _, _, _, _, _, _ => []
  | fuel + 1, nx, ny, a, b, c, d, e, f, g, h, iters =>
    let s := corners a b c d e f g h
    if s.lower = s.upper then
      match s.upper with
      | some q =>
        some q :: bihomLoop xp yp fuel nx ny e f g h
          (a - e * q) (b - f * q) (c - g * q) (d - h * q) max_iters
      | none => [none]
    else
      let ingest : Nat → List (Option Int) := fun k =>
        match bihomIngest xp yp nx ny a b c d e f g h s with
        | BIngest.next nx' ny' a' b' c' d' e' f' g' h' =>
          bihomLoop xp yp fuel nx' ny' a' b' c' d' e' f' g' h' k
        | BIngest.degradeToY ny' A B C D => homRun fuel ny' yp A B C D
        | BIngest.degradeToX nx' A B C D => homRun fuel nx' xp A B C D
      if bracketStuck s then
        if iters = 0 then s.upper :: [none]
        else ingest (iters - 1)
      else ingest iters

theorem blockE_proj (a e : Int) :
    (blockE a e).bf = none ∧ (blockE a e).cg = none ∧
    (blockE a e).dh = none ∧ (blockE a e).ingestx = none := by
  unfold blockE
  split <;> exact ⟨rfl, rfl, rfl, rfl⟩

theorem blockF_proj (b f : Int) (s : CState) (hf : f ≠ 0) :
    (blockF b f s).bf = some (b.fdiv f) ∧ (blockF b f s).cg = s.cg ∧
    (blockF b f s).dh = s.dh ∧ (blockF b f s).ingestx = s.ingestx := by
  unfold blockF
  rw [if_pos hf]
  dsimp only
  split
  · exact ⟨rfl, rfl, rfl, rfl⟩
  · split
    · exact ⟨rfl, rfl, rfl, rfl⟩
    · split <;> exact ⟨rfl, rfl, rfl, rfl⟩

theorem blockG_proj (c g : Int) (s : CState) (hg : g ≠ 0) :
    (blockG c g s).bf = s.bf ∧ (blockG c g s).cg = some (c.fdiv g) ∧
    (blockG c g s).dh = s.dh ∧ (blockG c g s).ingestx = s.ingestx := by
  unfold blockG
  rw [if_pos hg]
  dsimp only
  split
  · exact ⟨rfl, rfl, rfl, rfl⟩
  · split
    · exact ⟨rfl, rfl, rfl, rfl⟩
    · split
      · exact ⟨rfl, rfl, rfl, rfl⟩
      · split
        · exact ⟨rfl, rfl, rfl, rfl⟩
        · split <;> exact ⟨rfl, rfl, rfl, rfl⟩

theorem blockH_proj (d h : Int) (s : CState) (hh : h ≠ 0) :
    (blockH d h s).bf = s.bf ∧ (blockH d h s).cg = s.cg ∧
    (blockH d h s).dh = some (d.fdiv h) ∧ (blockH d h s).ingestx = s.ingestx := by
  unfold blockH
  rw [if_pos hh]
  dsimp only
  split
  · exact ⟨rfl, rfl, rfl, rfl⟩
  · split
    · exact ⟨rfl, rfl, rfl, rfl⟩
    · split
      · exact ⟨rfl, rfl, rfl, rfl⟩
      · split
        · exact ⟨rfl, rfl, rfl, rfl⟩
        · split <;> exact ⟨rfl, rfl, rfl, rfl⟩

theorem ingestCascade_abs (bfv cgv dhv : Int) :
    ingestCascade (some bfv) (some cgv) (some dhv) =
      decide (|bfv - dhv| > |cgv - dhv|) := by
  unfold ingestCascade
  dsimp only
  rcases abs_cases (bfv - dhv) with ⟨h1, h2⟩ | ⟨h1, h2⟩ <;>
    rcases abs_cases (cgv - dhv) with ⟨h3, h4⟩ | ⟨h3, h4⟩ <;>
    split_ifs <;> rw [decide_eq_decide] <;> omega

/-- Claim C3: in the input-selection step, when the three corner values
`b/f`, `c/g`, `d/h` are all defined (`f`, `g`, `h` nonzero), the
sign-aware branch cascade (which never computes an absolute value)
chooses to pull from input `x` exactly when
`|⌊b/f⌋ - ⌊d/h⌋| > |⌊c/g⌋ - ⌊d/h⌋|`: it equals the naive absolute-value
comparison. -/
theorem bihom_ingest_decision (a b c d e f g h : Int)
    (hf : f ≠ 0) (hg : g ≠ 0) (hh : h ≠ 0) :
    chooseIngest (corners a b c d e f g h) =
      decide (|b.fdiv f - d.fdiv h| > |c.fdiv g - d.fdiv h|) := by
  have hE := blockE_proj a e
  have hF := blockF_proj b f (blockE a e) hf
  have hG := blockG_proj c g (blockF b f (blockE a e)) hg
  have hH := blockH_proj d h (blockG c g (blockF b f (blockE a e))) hh
  unfold corners chooseIngest
  rw [hH.2.2.2, hG.2.2.2, hF.2.2.2, hE.2.2.2]
  rw [hH.1, hG.1, hF.1]
  rw [hH.2.1, hG.2.1]
  rw [hH.2.2.1]
  exact ingestCascade_abs (b.fdiv f) (c.fdiv g) (d.fdiv h)

/-- Witness for C3 at `(a..h) = (1, 9, 4, 2, 5, 2, 3, 1)`. -/
theorem bihom_ingest_decision_witness :
    (2 : Int) ≠ 0 ∧ (3 : Int) ≠ 0 ∧ (1 : Int) ≠ 0 ∧
    chooseIngest (corners 1 9 4 2 5 2 3 1) =
      decide (|(9 : Int).fdiv 2 - (2 : Int).fdiv 1| >
              |(4 : Int).fdiv 3 - (2 : Int).fdiv 1|) :=
  ⟨by decide, by decide, by decide,
   bihom_ingest_decision 1 9 4 2 5 2 3 1 (by decide) (by decide) (by decide)⟩

/-- Claim C2: the engine's rational-detection cutoff.  With the default
ceiling `max_iters = 100`: whenever the bracket on the next output
quotient cannot be resolved (`upper` undefined, or
`lower == upper - 1`) and the non-progress counter `iters_left` has
reached zero, the generator emits `upper` followed by the end marker and
(by the stream protocol) produces nothing further; when the counter is
positive, such an iteration decrements it by one and ingests; emitting a
quotient resets the counter to `max_iters`.  The counter thus counts
exactly the unresolved-bracket iterations since the last emission. -/
theorem bihom_cutoff_behaviour (xp yp : PQStream) (nx ny : Nat)
    (a b c d e f g h : Int) (fuel : Nat) :
    max_iters = 100 ∧
    ((corners a b c d e f g h).lower ≠ (corners a b c d e f g h).upper →
      bracketStuck (corners a b c d e f g h) = true →
      bihomLoop xp yp (fuel + 1) nx ny a b c d e f g h 0 =
        (corners a b c d e f g h).upper :: [none]) ∧
    (∀ k, (corners a b c d e f g h).lower ≠ (corners a b c d e f g h).upper →
      bracketStuck (corners a b c d e f g h) = true →
      bihomLoop xp yp (fuel + 1) nx ny a b c d e f g h (k + 1) =
        (match bihomIngest xp yp nx ny a b c d e f g h (corners a b c d e f g h) with
         | BIngest.next nx' ny' a' b' c' d' e' f' g' h' =>
           bihomLoop xp yp fuel nx' ny' a' b' c' d' e' f' g' h' k
         | BIngest.degradeToY ny' A B C D => homRun fuel ny' yp A B C D
         | BIngest.degradeToX nx' A B C D => homRun fuel nx' xp A B C D)) ∧
    (∀ (q : Int) (iters : Nat),
      (corners a b c d e f g h).lower = some q →
      (corners a b c d e f g h).upper = some q →
      bihomLoop xp yp (fuel + 1) nx ny a b c d e f g h iters =
        some q :: bihomLoop xp yp fuel nx ny e f g h
          (a - e * q) (b - f * q) (c - g * q) (d - h * q) max_iters) := by
  refine ⟨rfl, ?_, ?_, ?_⟩
  · intro hne hstuck
    rw [bihomLoop]
    dsimp only
    rw [if_neg hne, if_pos hstuck, if_pos rfl]
  · intro k hne hstuck
    rw [bihomLoop]
    dsimp only
    rw [if_neg hne, if_pos hstuck, if_neg (Nat.succ_ne_zero k)]
    simp only [Nat.add_sub_cancel]
  · intro q iters hl hu
    rw [bihomLoop]
    dsimp only
    rw [hl, hu, if_pos rfl]

/-- Witness for C2: the cutoff at the addition start state
`(0,1,1,0,0,0,0,1)` (whose bracket has `upper = None`) with an exhausted
counter, and the counter reset at the emitting state `(5,5,5,5,1,1,1,1)`. -/
theorem bihom_cutoff_behaviour_witness :
    ((corners 0 1 1 0 0 0 0 1).lower ≠ (corners 0 1 1 0 0 0 0 1).upper) ∧
    (bracketStuck (corners 0 1 1 0 0 0 0 1) = true) ∧
    (bihomLoop nanStream nanStream 1 0 0 0 1 1 0 0 0 0 1 0 =
      (corners 0 1 1 0 0 0 0 1).upper :: [none]) ∧
    ((corners 5 5 5 5 1 1 1 1).lower = some 5) ∧
    (bihomLoop nanStream nanStream 1 0 0 5 5 5 5 1 1 1 1 7 =
      some 5 :: bihomLoop nanStream nanStream 0 0 0 1 1 1 1 0 0 0 0 max_iters) :=
  ⟨by decide, by decide,
   (bihom_cutoff_behaviour nanStream nanStream 0 0 0 1 1 0 0 0 0 1 0).2.1
     (by decide) (by decide),
   by decide,
   (bihom_cutoff_behaviour nanStream nanStream 0 0 5 5 5 5 1 1 1 1 0).2.2.2 5 7
     (by decide) (by decide)⟩

/-! ### Arithmetic operator wrappers

Models of `cf_base`'s operator methods as functions from operand
streams to the result's output list (the reflected variants
`__radd__`/`__rmul__` delegate to the same code; `__rsub__`/`__rdiv__`
with an integer left operand have their own coefficient wiring,
modelled below).  `binop(x, y, a..h)` starts `_cf_bihomographic` with
`iters_left = allowed_iters = max_iters`; `unop(x, a, b, c, d)` starts
`_cf_homographic(0, x.pq, a, b, c, d)`. -/

/-- `self + other` for an integer `other` (also `other + self` via
`__radd__`): `unop(self, 1, other, 0, 1)` when `other` is nonzero,
`self` itself otherwise. -/
def py_add_int (xp : PQStream) (n : Int) (fuel : Nat) : List (Option Int) :=
  if n ≠ 0 then homRun fuel 0 xp 1 n 0 1 else obsStream xp fuel

/-- `self - other` for an integer `other`: `unop(self, -1, other, 0, -1)`
when `other` is nonzero, `self` otherwise. -/
def py_sub_int (xp : PQStream) (n : Int) (fuel : Nat) : List (Option Int) :=
  if n ≠ 0 then homRun fuel 0 xp (-1) n 0 (-1) else obsStream xp fuel

/-- `other - self` for an integer `other` (`__rsub__`):
`unop(self, -1, other, 0, 1)`. -/
def py_rsub_int (xp : PQStream) (n : Int) (fuel : Nat) : List (Option Int) :=
  homRun fuel 0 xp (-1) n 0 1

/-- `self * other` for an integer `other` (also `other * self` via
`__rmul__`): `NaN` when `self` is `NaN` (without this check `NaN*0`
would be `0`), `self` when `other == 1`, else `unop(self, other, 0, 0, 1)`. -/
def py_mul_int (xp : PQStream) (n : Int) (fuel : Nat) : List (Option Int) :=
  if xp 0 = none then obsStream nanStream fuel
  else if n = 1 then obsStream xp fuel
  else homRun fuel 0 xp n 0 0 1

/-- `self / other` for an integer `other`: `self` when `other == 1`,
else `unop(self, 1, 0, 0, other)`. -/
def py_div_int (xp : PQStream) (n : Int) (fuel : Nat) : List (Option Int) :=
  if n = 1 then obsStream xp fuel else homRun fuel 0 xp 1 0 0 n

/-- `other / self` for an integer `other` (`__rdiv__`): `NaN` when
`self` is `NaN`, else `unop(self, 0, other, 1, 0)`. -/
def py_rdiv_int (xp : PQStream) (n : Int) (fuel : Nat) : List (Option Int) :=
  if xp 0 = none then obsStream nanStream fuel else homRun fuel 0 xp 0 n 1 0

/-- `self + other` for continued-fraction operands:
`binop(self, cf(other), 0, 1, 1, 0, 0, 0, 0, 1)`. -/
def py_add (xp yp : PQStream) (fuel : Nat) : List (Option Int) :=
  bihomLoop xp yp fuel 0 0 0 1 1 0 0 0 0 1 max_iters

/-- `self - other` for continued-fraction operands:
`binop(self, cf(other), 0, 1, -1, 0, 0, 0, 0, 1)`. -/
def py_sub (xp yp : PQStream) (fuel : Nat) : List (Option Int) :=
  bihomLoop xp yp fuel 0 0 0 1 (-1) 0 0 0 0 1 max_iters

/-- `self * other` for continued-fraction operands:
`binop(self, cf(other), 1, 0, 0, 0, 0, 0, 0, 1)`. -/
def py_mul (xp yp : PQStream) (fuel : Nat) : List (Option Int) :=
  bihomLoop xp yp fuel 0 0 1 0 0 0 0 0 0 1 max_iters

/-- `self / other` for continued-fraction operands: `NaN` when the
divisor's stream is empty or the divisor is exactly zero, else
`binop(self, other, 0, 1, 0, 0, 0, 0, 1, 0)`. -/
def py_div (xp yp : PQStream) (fuel : Nat) : List (Option Int) :=
  if yp 0 = none ∨ (yp 0 = some 0 ∧ yp 1 = none) then obsStream nanStream fuel
  else bihomLoop xp yp fuel 0 0 0 1 0 0 0 0 1 0 max_iters

/-- Well-formedness of a value's stream (data-model invariant): every
partial quotient after the initial one is at least `1`. -/
def WFTail (xp : PQStream) : Prop :=
  ∀ (i : Nat) (q : Int), 1 ≤ i → xp i = some q → 1 ≤ q

/-! ### No-value propagation (claim C7) -/

theorem homRun_cd_zero (fuel n : Nat) (xp : PQStream) (A B : Int)
    (hf : 1 ≤ fuel) : (homRun fuel n xp A B 0 0).head? = some none := by
  obtain ⟨fl, rfl⟩ : ∃ fl, fuel = fl + 1 := ⟨fuel - 1, by omega⟩
  rw [homRun]
  rw [show homDecide A B 0 0 = HDecision.emitEnd from by simp [homDecide]]
  rfl

theorem homRun_nan_input (fuel n : Nat) (A B F : Int)
    (h : F = 0 ∨ A ≠ 0) (hf : 1 ≤ fuel) :
    (homRun fuel n nanStream A B 0 F).head? = some none := by
  obtain ⟨fl, rfl⟩ : ∃ fl, fuel = fl + 1 := ⟨fuel - 1, by omega⟩
  by_cases hF : F = 0
  · subst hF
    exact homRun_cd_zero (fl + 1) n nanStream A B (by omega)
  · have hA : A ≠ 0 := by tauto
    rw [homRun]
    rw [show homDecide A B 0 F = HDecision.pull from by simp [homDecide, hF, hA]]
    show (match nanStream n with
          | some q => homRun fl (n + 1) nanStream (B + A * q) A (F + 0 * q) 0
          | none => homFlush A 0).head? = some none
    show (homFlush A 0).head? = some none
    rw [homFlush]
    rfl

theorem blockE_nonzero (a : Int) (ha : a ≠ 0) :
    blockE a 0 = ⟨none, none, true, none, none, none, none⟩ := by
  unfold blockE
  rw [if_neg (by simp)]
  simp [ha]

theorem blockF_of_blockE (a b f : Int) (ha : a ≠ 0) :
    (blockF b f (blockE a 0)).upper = none ∧
    (blockF b f (blockE a 0)).anyR = true := by
  rw [blockE_nonzero a ha]
  unfold blockF
  by_cases hf : f ≠ 0
  · rw [if_pos hf]
    dsimp only
    exact ⟨rfl, rfl⟩
  · rw [if_neg hf]
    by_cases hb : b ≠ 0
    · rw [if_pos hb]
      exact ⟨rfl, rfl⟩
    · rw [if_neg hb]
      exact ⟨rfl, rfl⟩

theorem blockG_zero_state (c : Int) (s : CState) (ha : s.anyR = true)
    (hu : s.upper = none) :
    (blockG c 0 s).upper = none ∧ (blockG c 0 s).anyR = true := by
  unfold blockG
  rw [if_neg (by simp)]
  split
  · exact ⟨rfl, rfl⟩
  · exact ⟨hu, ha⟩

theorem blockH_upper_none (d h : Int) (s : CState) (ha : s.anyR = true)
    (hu : s.upper = none) : (blockH d h s).upper = none := by
  unfold blockH
  by_cases hh : h ≠ 0
  · rw [if_pos hh]
    dsimp only
    rw [if_neg (by simp [ha])]
    cases hl : s.lower with
    | none => exact hu
    | some l =>
      dsimp only
      split
      · exact hu
      · rw [hu]
  · rw [if_neg hh]
    split
    · rfl
    · exact hu

theorem corners_upper_none (a b c d f h : Int) (ha : a ≠ 0) :
    (corners a b c d 0 f 0 h).upper = none := by
  unfold corners
  have h1 := blockF_of_blockE a b f ha
  have h2 := blockG_zero_state c (blockF b f (blockE a 0)) h1.2 h1.1
  exact blockH_upper_none d h _ h2.2 h2.1

/-- Invariant run lemma for `binop(x, NaN, ...)` with addition/subtraction
shaped coefficients: with `e = g = 0` and the `(a, c)` column keeping the
fixed sign `sg` with `|a| ≥ 1`, the engine never emits a finite quotient
before consulting the `NaN` input or exhausting its counter, so the first
produced value is the end marker. -/
theorem bihom_nan_y_invariant (sg : Int) (xp : PQStream) (hwf : WFTail xp) :
    ∀ (fuel iters nx ny : Nat) (a b c d f h : Int),
      1 ≤ nx → 1 ≤ sg * a → 0 ≤ sg * c → iters + 2 ≤ fuel →
      (bihomLoop xp nanStream fuel nx ny a b c d 0 f 0 h iters).head? = some none := by
  intro fuel
  induction fuel with
  | zero =>
    intro iters nx ny a b c d f h _ _ _ hle
    omega
  | succ fl ih =>
    intro iters nx ny a b c d f h hnx hsa hsc hle
    have ha : a ≠ 0 := by
      intro hc
      rw [hc, mul_zero] at hsa
      omega
    have hup := corners_upper_none a b c d f h ha
    rw [bihomLoop]
    dsimp only
    by_cases hlu : (corners a b c d 0 f 0 h).lower = (corners a b c d 0 f 0 h).upper
    · rw [if_pos hlu, hup]
      rfl
    · rw [if_neg hlu]
      have hstuck : bracketStuck (corners a b c d 0 f 0 h) = true := by
        unfold bracketStuck
        rw [hup]
      rw [if_pos hstuck]
      by_cases hit : iters = 0
      · rw [if_pos hit, hup]
        rfl
      · rw [if_neg hit]
        unfold bihomIngest
        by_cases hch : chooseIngest (corners a b c d 0 f 0 h) = true
        · rw [if_pos hch]
          cases hx : xp nx with
          | none =>
            dsimp only
            exact homRun_nan_input fl ny a b f (Or.inr ha) (by omega)
          | some q =>
            dsimp only
            have hq : 1 ≤ q := hwf nx q hnx hx
            have hz : (0 : Int) + 0 * q = 0 := by ring
            rw [hz]
            apply ih
            · omega
            · have hrw : sg * (c + a * q) = sg * c + sg * a * q := by ring
              have hge : 1 * 1 ≤ (sg * a) * q :=
                mul_le_mul hsa hq (by norm_num) (by omega)
              rw [hrw]
              nlinarith
            · nlinarith
            · omega
        · rw [if_neg hch]
          show (match nanStream ny with
                | some q => bihomLoop xp nanStream fl nx (ny + 1) (b + a * q) a
                    (d + c * q) c (f + 0 * q) 0 (h + 0 * q) 0 (iters - 1)
                | none => homRun fl nx xp a c 0 0).head? = some none
          exact homRun_cd_zero fl nx xp a c (by omega)

theorem obsStream_nan_head (fuel : Nat) (hf : 1 ≤ fuel) :
    (obsStream nanStream fuel).head? = some none := by
  obtain ⟨fl, rfl⟩ : ∃ fl, fuel = fl + 1 := ⟨fuel - 1, by omega⟩
  rfl

theorem py_add_nan_left (yp : PQStream) (fuel : Nat) (hf : 2 ≤ fuel) :
    (py_add nanStream yp fuel).head? = some none := by
  obtain ⟨fl, rfl⟩ : ∃ fl, fuel = fl + 1 := ⟨fuel - 1, by omega⟩
  unfold py_add
  rw [bihomLoop]
  dsimp only
  rw [show corners 0 1 1 0 0 0 0 1
        = ⟨some 0, none, true, none, none, some 0, none⟩ from by decide]
  rw [if_neg (by decide), if_pos (by decide), if_neg (by decide)]
  unfold bihomIngest
  rw [if_pos (by decide)]
  show (homRun fl 0 yp 0 1 0 0).head? = some none
  exact homRun_cd_zero fl 0 yp 0 1 (by omega)

theorem py_sub_nan_left (yp : PQStream) (fuel : Nat) (hf : 2 ≤ fuel) :
    (py_sub nanStream yp fuel).head? = some none := by
  obtain ⟨fl, rfl⟩ : ∃ fl, fuel = fl + 1 := ⟨fuel - 1, by omega⟩
  unfold py_sub
  rw [bihomLoop]
  dsimp only
  rw [show corners 0 1 (-1) 0 0 0 0 1
        = ⟨some 0, none, true, none, none, some 0, none⟩ from by decide]
  rw [if_neg (by decide), if_pos (by decide), if_neg (by decide)]
  unfold bihomIngest
  rw [if_pos (by decide)]
  show (homRun fl 0 yp 0 1 0 0).head? = some none
  exact homRun_cd_zero fl 0 yp 0 1 (by omega)

theorem py_mul_nan_left (yp : PQStream) (fuel : Nat) (hf : 2 ≤ fuel) :
    (py_mul nanStream yp fuel).head? = some none := by
  obtain ⟨fl, rfl⟩ : ∃ fl, fuel = fl + 1 := ⟨fuel - 1, by omega⟩
  unfold py_mul
  rw [bihomLoop]
  dsimp only
  rw [show corners 1 0 0 0 0 0 0 1
        = ⟨some 0, none, true, none, none, some 0, some true⟩ from by decide]
  rw [if_neg (by decide), if_pos (by decide), if_neg (by decide)]
  unfold bihomIngest
  rw [if_pos (by decide)]
  show (homRun fl 0 yp 1 0 0 0).head? = some none
  exact homRun_cd_zero fl 0 yp 1 0 (by omega)

theorem py_div_nan_left (yp : PQStream) (fuel : Nat) (hf : 2 ≤ fuel) :
    (py_div nanStream yp fuel).head? = some none := by
  unfold py_div
  split
  · exact obsStream_nan_head fuel (by omega)
  · obtain ⟨fl, rfl⟩ : ∃ fl, fuel = fl + 1 := ⟨fuel - 1, by omega⟩
    rw [bihomLoop]
    dsimp only
    rw [show corners 0 1 0 0 0 0 1 0
          = ⟨some 0, none, true, none, some 0, some 0, none⟩ from by decide]
    rw [if_neg (by decide), if_pos (by decide), if_neg (by decide)]
    unfold bihomIngest
    rw [if_pos (by decide)]
    show (homRun fl 0 yp 0 1 0 0).head? = some none
    exact homRun_cd_zero fl 0 yp 0 1 (by omega)

theorem corners_mul_second (q : Int) :
    corners q 0 1 0 0 1 0 0
      = ⟨some 0, none, true, some 0, none, some 0, none⟩ := by
  by_cases hq : q = 0
  · subst hq
    decide
  · unfold corners blockE blockF blockG blockH
    simp [hq]

theorem py_mul_nan_right (xp : PQStream) (fuel : Nat) (hf : 3 ≤ fuel) :
    (py_mul xp nanStream fuel).head? = some none := by
  obtain ⟨fl, rfl⟩ : ∃ fl, fuel = fl + 2 := ⟨fuel - 2, by omega⟩
  unfold py_mul
  rw [show fl + 2 = (fl + 1) + 1 from rfl, bihomLoop]
  dsimp only
  rw [show corners 1 0 0 0 0 0 0 1
        = ⟨some 0, none, true, none, none, some 0, some true⟩ from by decide]
  rw [if_neg (by decide), if_pos (by decide), if_neg (by decide)]
  unfold bihomIngest
  rw [if_pos (by decide)]
  cases hx : xp 0 with
  | none =>
    show (homRun (fl + 1) 0 nanStream 1 0 0 0).head? = some none
    exact homRun_cd_zero (fl + 1) 0 nanStream 1 0 (by omega)
  | some q =>
    show (bihomLoop xp nanStream (fl + 1) 1 0 (0 + 1 * q) (0 + 0 * q) 1 0
        (0 + 0 * q) (1 + 0 * q) 0 0 (max_iters - 1)).head? = some none
    rw [show (0 : Int) + 1 * q = q from by ring,
      show (0 : Int) + 0 * q = 0 from by ring,
      show (1 : Int) + 0 * q = 1 from by ring]
    rw [bihomLoop]
    dsimp only
    rw [corners_mul_second q]
    rw [if_neg (by decide), if_pos (by decide), if_neg (by decide)]
    unfold bihomIngest
    rw [if_neg (by decide)]
    show (homRun fl 1 xp q 1 0 0).head? = some none
    exact homRun_cd_zero fl 1 xp q 1 (by omega)

theorem py_addsub_nan_right (xp : PQStream) (hwf : WFTail xp) (fuel : Nat)
    (hf : 102 ≤ fuel) :
    (py_add xp nanStream fuel).head? = some none ∧
    (py_sub xp nanStream fuel).head? = some none := by
  obtain ⟨fl, rfl⟩ : ∃ fl, fuel = fl + 1 := ⟨fuel - 1, by omega⟩
  constructor
  · unfold py_add
    rw [bihomLoop]
    dsimp only
    rw [show corners 0 1 1 0 0 0 0 1
          = ⟨some 0, none, true, none, none, some 0, none⟩ from by decide]
    rw [if_neg (by decide), if_pos (by decide), if_neg (by decide)]
    unfold bihomIngest
    rw [if_pos (by decide)]
    cases hx : xp 0 with
    | none =>
      show (homRun fl 0 nanStream 0 1 0 0).head? = some none
      exact homRun_cd_zero fl 0 nanStream 0 1 (by omega)
    | some q =>
      show (bihomLoop xp nanStream fl 1 0 (1 + 0 * q) (0 + 1 * q) 0 1
          (0 + 0 * q) (1 + 0 * q) 0 0 (max_iters - 1)).head? = some none
      rw [show (1 : Int) + 0 * q = 1 from by ring,
        show (0 : Int) + 1 * q = q from by ring,
        show (0 : Int) + 0 * q = 0 from by ring]
      apply bihom_nan_y_invariant 1 xp hwf fl (max_iters - 1) 1 0 1 q 0 1 1 0
        (by omega) (by norm_num) (by norm_num)
      show max_iters - 1 + 2 ≤ fl
      have : max_iters = 100 := rfl
      omega
  · unfold py_sub
    rw [bihomLoop]
    dsimp only
    rw [show corners 0 1 (-1) 0 0 0 0 1
          = ⟨some 0, none, true, none, none, some 0, none⟩ from by decide]
    rw [if_neg (by decide), if_pos (by decide), if_neg (by decide)]
    unfold bihomIngest
    rw [if_pos (by decide)]
    cases hx : xp 0 with
    | none =>
      show (homRun fl 0 nanStream 0 1 0 0).head? = some none
      exact homRun_cd_zero fl 0 nanStream 0 1 (by omega)
    | some q =>
      show (bihomLoop xp nanStream fl 1 0 (-1 + 0 * q) (0 + 1 * q) 0 1
          (0 + 0 * q) (1 + 0 * q) 0 0 (max_iters - 1)).head? = some none
      rw [show (-1 : Int) + 0 * q = -1 from by ring,
        show (0 : Int) + 1 * q = q from by ring,
        show (0 : Int) + 0 * q = 0 from by ring,
        show (1 : Int) + 0 * q = 1 from by ring]
      apply bihom_nan_y_invariant (-1) xp hwf fl (max_iters - 1) 1 0 (-1) q 0 1 1 0
        (by omega) (by norm_num) (by norm_num)
      show max_iters - 1 + 2 ≤ fl
      have : max_iters = 100 := rfl
      omega

/-- Claim C7: "no value" (the empty-stream `NaN` sentinel) is absorbing
for addition, subtraction, multiplication and division, in either
operand order and with the other operand either an integer or a
continued-fraction value: the result's stream begins with the end
marker, i.e. the result is `NaN`.  In particular `NaN * 0 = NaN` (no
zero short-circuit) and `1 / NaN = NaN`.  The `x op NaN` cases for
addition and subtraction hold for any well-formed left operand (its
non-initial quotients at least `1`); all other cases hold for arbitrary
streams. -/
theorem noValue_absorption :
    (∀ (n : Int) (fuel : Nat), 1 ≤ fuel →
      (py_add_int nanStream n fuel).head? = some none ∧
      (py_sub_int nanStream n fuel).head? = some none ∧
      (py_rsub_int nanStream n fuel).head? = some none ∧
      (py_mul_int nanStream n fuel).head? = some none ∧
      (py_div_int nanStream n fuel).head? = some none ∧
      (py_rdiv_int nanStream n fuel).head? = some none) ∧
    (∀ (yp : PQStream) (fuel : Nat), 2 ≤ fuel →
      (py_add nanStream yp fuel).head? = some none ∧
      (py_sub nanStream yp fuel).head? = some none ∧
      (py_mul nanStream yp fuel).head? = some none ∧
      (py_div nanStream yp fuel).head? = some none) ∧
    (∀ (xp : PQStream) (fuel : Nat), 1 ≤ fuel →
      (py_div xp nanStream fuel).head? = some none) ∧
    (∀ (xp : PQStream) (fuel : Nat), WFTail xp → 102 ≤ fuel →
      (py_add xp nanStream fuel).head? = some none ∧
      (py_sub xp nanStream fuel).head? = some none) ∧
    (∀ (xp : PQStream) (fuel : Nat), 3 ≤ fuel →
      (py_mul xp nanStream fuel).head? = some none) ∧
    (py_mul_int nanStream 0 1).head? = some none ∧
    (py_rdiv_int nanStream 1 1).head? = some none := by
  have hobs := obsStream_nan_head
  refine ⟨?_, ?_, ?_, ?_, ?_, ?_, ?_⟩
  · intro n fuel hf
    refine ⟨?_, ?_, ?_, ?_, ?_, ?_⟩
    · unfold py_add_int
      split
      · exact homRun_nan_input fuel 0 1 n 1 (Or.inr (by norm_num)) hf
      · exact hobs fuel hf
    · unfold py_sub_int
      split
      · exact homRun_nan_input fuel 0 (-1) n (-1) (Or.inr (by norm_num)) hf
      · exact hobs fuel hf
    · exact homRun_nan_input fuel 0 (-1) n 1 (Or.inr (by norm_num)) hf
    · unfold py_mul_int
      rw [if_pos (show nanStream 0 = none from rfl)]
      exact hobs fuel hf
    · unfold py_div_int
      split
      · exact hobs fuel hf
      · by_cases hn : n = 0
        · subst hn
          exact homRun_cd_zero fuel 0 nanStream 1 0 hf
        · exact homRun_nan_input fuel 0 1 0 n (Or.inr (by norm_num)) hf
    · unfold py_rdiv_int
      rw [if_pos (show nanStream 0 = none from rfl)]
      exact hobs fuel hf
  · intro yp fuel hf
    exact ⟨py_add_nan_left yp fuel hf, py_sub_nan_left yp fuel hf,
      py_mul_nan_left yp fuel hf, py_div_nan_left yp fuel hf⟩
  · intro xp fuel hf
    unfold py_div
    rw [if_pos (Or.inl (show nanStream 0 = none from rfl))]
    exact hobs fuel hf
  · intro xp fuel hwf hf
    exact py_addsub_nan_right xp hwf fuel hf
  · intro xp fuel hf
    exact py_mul_nan_right xp fuel hf
  · exact rfl
  · exact rfl

/-- Witness for C7: the all-ones value `[1; 1, 1, ...]` plus `NaN` is
`NaN`, and `NaN * 0 = NaN`. -/
theorem noValue_absorption_witness :
    WFTail cmpCexA ∧ (102 : Nat) ≤ 102 ∧
    (py_add cmpCexA nanStream 102).head? = some none ∧
    (py_mul_int nanStream 0 1).head? = some none :=
  have hwf : WFTail cmpCexA := fun i q _ hq => by
    unfold cmpCexA at hq
    simp only [Option.some.injEq] at hq
    omega
  ⟨hwf, by omega,
   (noValue_absorption.2.2.2.1 cmpCexA 102 hwf (by omega)).1,
   noValue_absorption.2.2.2.2.2.1⟩

/-! ### Decimal/radix digit emission

`digits(x, base)` reuses the homographic corner computation (textually
identical to `_cf_homographic`'s, with `return` in place of the
`ac = bd = None` arm) with the numerator row rescaled by the base on
each emission instead of the Möbius row rotation. -/

/-- One observation of the `digits` loop: the while-condition `a or b`
fails (`exhaust`; the generator then yields a final `0` if no digit was
emitted yet and stops), the `c = 0 and d = 0` arm returns (`halt`), a
digit is emitted with the numerator row rescaled by the base, or one
answer of `x`'s stream is consumed (on the end marker: `b, d = a, c`). -/
inductive DigitsMove where
  | exhaust
  | halt
  | emit (dig a b : Int)
  | pull (a b c d : Int)
deriving DecidableEq

/-- The body of `digits(x, base)`'s loop as a step function of the
coefficient state and the stream answer `xq` that `x_pq(nx)` would give
if pulled. -/
def digitsStep (base a b c d : Int) (xq : Option Int) : DigitsMove :=
  if a = 0 ∧ b = 0 then DigitsMove.exhaust
  else
    match homDecide a b c d with
    | HDecision.emitEnd => DigitsMove.halt
    | HDecision.emit q => DigitsMove.emit q (base * (a - c * q)) (base * (b - d * q))
    | HDecision.pull =>
      match xq with
      | some q => DigitsMove.pull (b + a * q) a (d + c * q) c
      | none => DigitsMove.pull a a c c

/-- The generator `digits(x, base)` from state `(a, b, c, d)`, with `od`
the `output_digits` flag and `nx` the number of stream answers consumed. -/
def digitsRun (base : Int) (xp : PQStream) :
    Nat → Int → Int → Int → Int → Nat → Bool → List Int
  | 0, _, _, _, _, _, _ => []
  | fuel + 1, a, b, c, d, nx, od =>
    match digitsStep base a b c d (xp nx) with
    | DigitsMove.exhaust => if od then [] else [0]
    | DigitsMove.halt => []
    | DigitsMove.emit dig a' b' => dig :: digitsRun base xp fuel a' b' c d nx true
    | DigitsMove.pull a' b' c' d' => digitsRun base xp fuel a' b' c' d' (nx + 1) od

/-- `digits(x, base)` from its initial state `a, b, c, d, output_digits,
nx = 1, 0, 0, 1, 0, 0`. -/
def digitsOf (xp : PQStream) (base : Int) (fuel : Nat) : List Int :=
  digitsRun base xp fuel 1 0 0 1 0 false

/-- The stream of the fixed-sequence value `cf((1, 0, -2))`, whose
non-initial partial quotients are non-positive (its value is `-1`). -/
def nonCanonicalStream : PQStream := fun n =>
  if n = 0 then some 1 else if n = 1 then some 0 else if n = 2 then some (-2) else none

/-- Claim C9 (counterexample): the digits generator stops at states
where only one of the two rows is zero, not both.  At `(1, 1, 0, 0)`
(reached from a NaN input after `b, d = a, c`) the denominator row is
zero and the generator returns although the numerator row is `(1, 1)`;
at `(0, 0, 2, 2)` (reached when emitting the digits of `1/2`) the
while-condition fails although the denominator row is `(2, 2)`. -/
theorem digits_claim_counterexample :
    digitsStep 10 1 1 0 0 none = DigitsMove.halt ∧
    ¬((1 : Int) = 0 ∧ (1 : Int) = 0 ∧ (0 : Int) = 0 ∧ (0 : Int) = 0) ∧
    digitsStep 10 0 0 2 2 none = DigitsMove.exhaust ∧
    ¬((0 : Int) = 0 ∧ (0 : Int) = 0 ∧ (2 : Int) = 0 ∧ (2 : Int) = 0) := by
  decide


theorem homDecide_emitEnd_iff (a b c d : Int) :
    homDecide a b c d = HDecision.emitEnd ↔ (c = 0 ∧ d = 0) := by
  unfold homDecide
  by_cases hc : c ≠ 0
  · rw [if_pos hc]
    dsimp only
    constructor
    · intro hh
      split at hh
      · split at hh <;> simp_all
      · split at hh <;> simp_all
    · intro hh
      exact absurd hh.1 hc
  · rw [if_neg hc]
    push_neg at hc
    by_cases hdz : d ≠ 0
    · rw [if_pos hdz]
      constructor
      · intro hh
        split at hh <;> simp_all
      · intro hh
        exact absurd hh.2 hdz
    · rw [if_neg hdz]
      push_neg at hdz
      simp [hc, hdz]

/-- Claim C9 (amended): the digits generator stops producing digits
exactly once the numerator row `(a, b)` is zero (yielding one final `0`
first when no digit has been emitted yet) or the denominator row
`(c, d)` is zero; until then every step either emits a digit, rescaling
the numerator row by the base, or consumes one more answer of `x`'s
stream (handling the end marker by `b, d = a, c`).  Non-initial
non-positive partial quotients are handled correctly rather than
assuming canonical form: the digits of the non-canonical
`cf((1, 0, -2))` are exactly `[-1]`, its value. -/
theorem digits_stop_characterization :
    (∀ (base a b c d : Int) (xq : Option Int),
      (digitsStep base a b c d xq = DigitsMove.exhaust ∨
       digitsStep base a b c d xq = DigitsMove.halt) ↔
      ((a = 0 ∧ b = 0) ∨ (c = 0 ∧ d = 0))) ∧
    (∀ (base a b c d : Int) (xq : Option Int),
      ¬(a = 0 ∧ b = 0) → ¬(c = 0 ∧ d = 0) →
      (∃ g, digitsStep base a b c d xq
          = DigitsMove.emit g (base * (a - c * g)) (base * (b - d * g))) ∨
      (∃ q, xq = some q ∧ digitsStep base a b c d xq
          = DigitsMove.pull (b + a * q) a (d + c * q) c) ∨
      (xq = none ∧ digitsStep base a b c d xq = DigitsMove.pull a a c c)) ∧
    digitsOf nonCanonicalStream 10 6 = [-1] := by
  refine ⟨?_, ?_, by decide⟩
  · intro base a b c d xq
    unfold digitsStep
    by_cases hab : a = 0 ∧ b = 0
    · rw [if_pos hab]
      simp [hab]
    · rw [if_neg hab]
      constructor
      · intro hstop
        rcases hd : homDecide a b c d with q | _ | _ <;> rw [hd] at hstop
        · rcases hstop with hh | hh <;> exact absurd hh (by simp)
        · exact Or.inr ((homDecide_emitEnd_iff a b c d).mp hd)
        · cases hxq : xq <;> rw [hxq] at hstop <;>
            rcases hstop with hh | hh <;> exact absurd hh (by simp)
      · intro hrows
        have hcd : c = 0 ∧ d = 0 := hrows.resolve_left hab
        rw [(homDecide_emitEnd_iff a b c d).mpr hcd]
        exact Or.inr rfl
  · intro base a b c d xq hab hcd
    unfold digitsStep
    rw [if_neg hab]
    rcases hd : homDecide a b c d with q | _ | _
    · exact Or.inl ⟨q, rfl⟩
    · exact absurd ((homDecide_emitEnd_iff a b c d).mp hd) hcd
    · cases hxq : xq with
      | some q => exact Or.inr (Or.inl ⟨q, rfl, rfl⟩)
      | none => exact Or.inr (Or.inr ⟨rfl, rfl⟩)

/-- Witness for the amended C9 at the non-stopped state
`(a, b, c, d) = (1, 2, 3, 4)` with next stream answer `5`. -/
theorem digits_stop_characterization_witness :
    ¬((1 : Int) = 0 ∧ (2 : Int) = 0) ∧ ¬((3 : Int) = 0 ∧ (4 : Int) = 0) ∧
    ((∃ g, digitsStep 10 1 2 3 4 (some 5)
        = DigitsMove.emit g (10 * (1 - 3 * g)) (10 * (2 - 4 * g))) ∨
     (∃ q, (some 5 : Option Int) = some q ∧ digitsStep 10 1 2 3 4 (some 5)
        = DigitsMove.pull (2 + 1 * q) 1 (4 + 3 * q) 3) ∨
     ((some 5 : Option Int) = none ∧
       digitsStep 10 1 2 3 4 (some 5) = DigitsMove.pull 1 1 3 3)) :=
  ⟨by decide, by decide,
   digits_stop_characterization.2.1 10 1 2 3 4 (some 5) (by decide) (by decide)⟩

/-! ### The pi generator

`_cf_pi._cf_pi_generator`: the regular continued fraction of pi from a
generalized continued fraction for `4/pi`, with no external source. -/

/-- The helper `gcd(x, y)` of the pi generator:
`while y: x, y = y, x % y; return x`. -/
def pyGcd (x y : Int) : Int :=
  if hy : y = 0 then x
  else pyGcd y (x.fmod y)
termination_by y.natAbs
decreasing_by exact fmod_natAbs_lt x hy

/-- The main loop of `_cf_pi_generator` on state `(a, b, c, d, p, q)`:
emit `a//c` when it equals `b//d`, else fold in the next generalized
term (`p` runs over consecutive squares, `q` over consecutive odd
integers), reducing the four coefficients by their gcd whenever
`q & 2047 == 1` (for the nonnegative `q` maintained here, `q.toNat`'s
bitwise test is Python's).  One unit of fuel per loop iteration. -/
def piLoop : Nat → Int → Int → Int → Int → Int → Int → List Int
  | 0, _, _, _, _, _, _ => []
  | fuel + 1, a, b, c, d, p, q =>
    let ac := a.fdiv c
    let bd := b.fdiv d
    if ac = bd then
      ac :: piLoop fuel c d (a.fmod c) (b.fmod d) p q
    else
      let a' := p * b + q * a
      let b' := a
      let c' := p * d + q * c
      let d' := c
      let p' := p + q
      let q' := q + 2
      if (q'.toNat &&& 2047) = 1 then
        let g := pyGcd a' (pyGcd c' (pyGcd b' d'))
        piLoop fuel (a'.fdiv g) (b'.fdiv g) (c'.fdiv g) (d'.fdiv g) p' q'
      else
        piLoop fuel a' b' c' d' p' q'

/-- The full output of `_cf_pi_generator`: the verbatim initial `3`
followed by the main loop from its hand-initialized state
`a, b, c, d, p, q = 51, 6, 7, 1, 16, 9`. -/
def piQuots (fuel : Nat) : List Int :=
  3 :: piLoop fuel 51 6 7 1 16 9

/-- Claim C8: the first 13 partial quotients produced by the pi
generator (which consumes no external source) are exactly
`3, 7, 15, 1, 292, 1, 1, 1, 2, 1, 3, 1, 14`.  Forty loop iterations
produce at least 13 quotients; none of the first forty triggers the
gcd reduction (`q` stays far below 2049). -/
theorem pi_first_thirteen :
    (piQuots 40).take 13 = [3, 7, 15, 1, 292, 1, 1, 1, 2, 1, 3, 1, 14] := by
  decide
